import Mathlib

/-!
Verification development for the luhack bot and website repository.

The development shallowly embeds the pure content of the handlers in
`luhack_bot/cogs/infra.py`, `luhack_bot/cogs/todos.py` and
`luhack_site/writeups.py`: network fetches become parameters (the fetched
device list, the per-attempt outcome of an HTTP call), database tables
become association lists, and the third-party helpers the code calls
(`pygtrie.CharTrie.longest_prefix`, `rapidfuzz.process.extract`,
`aioretry.retry`) are modelled by executable Lean functions following
those libraries' documented semantics, parameterised over the parts that
do not matter here (for instance the fuzzy scoring function).

Layout: all definitions first, then helper lemmas, then one theorem per
claim with its witness or counterexample.
-/

namespace Luhack

/-- Upstream device record, from the pydantic model `Device` in
`luhack_bot/cogs/infra.py` (fields `addresses`, `tags`, `connected`,
`id`, `name`, `fqdn`, `hostname`). -/
structure Device where
  addresses : List String
  tags : List String
  connected : Bool
  id : String
  name : String
  fqdn : String
  hostname : String
deriving DecidableEq, Repr

/-- `target_devices` from `infra.py`: filters the fetched device list down
to devices carrying the `tag:target` tag that are currently connected.
The upstream fetch `devices()` is the parameter `fetched`. -/
def target_devices (fetched : List Device) : List Device :=
  fetched.filter (fun dev => dev.tags.contains "tag:target" && dev.connected)

/-- `get_device` from `infra.py`: first cached device with the given name. -/
def get_device (fetched : List Device) (name : String) : Option Device :=
  (target_devices fetched).find? (fun dev => dev.name == name)

/-- `get_devices_with_hostname` from `infra.py`: all cached devices whose
hostname matches exactly. -/
def get_devices_with_hostname (fetched : List Device) (hostname : String) :
    List Device :=
  (target_devices fetched).filter (fun dev => dev.hostname == hostname)

/-- Outcome of the `MachineInfoView.join` button handler, restricted to the
part the spec talks about: either the "borked" reply (no device with the
stored hostname), or a proceed with a chosen machine, remembering whether
the multi-match warning was logged. -/
inductive JoinOutcome where
  | borked : JoinOutcome
  | proceed (warned : Bool) (machine : Device) : JoinOutcome
deriving DecidableEq, Repr

/-- The hostname-resolution slice of `MachineInfoView.join` in `infra.py`:
look up the devices with the display's stored hostname; zero matches is
the borked reply; more than one match logs a warning; the handler proceeds
with `machines[0]`. -/
def join_handler (fetched : List Device) (machine_hostname : String) :
    JoinOutcome :=
  let machines := get_devices_with_hostname fetched machine_hostname
  match machines with
  | [] => JoinOutcome.borked
  | m :: rest => JoinOutcome.proceed (decide (1 < (m :: rest).length)) m

/-- The `machines` table (`alembic` migration `ac2a0e49a58e`): rows of
`hostname` (unique) and `description`. The description is carried as an
`Option String` because `attach_desc` in `infra.py` explicitly guards
against a null trie value. -/
abbrev MachineTable := List (String × Option String)

/-- The key relation of `pygtrie.CharTrie`: trie keys are sequences of
characters, so a key matches when its character sequence is a prefix of
the queried name's character sequence. -/
def charPrefixOf (p s : String) : Bool := p.data.isPrefixOf s.data

/-- Model of `pygtrie.CharTrie.longest_prefix` on the trie
`CharTrie({m.hostname: m.description for m in machines})` built in
`target_devices_descriptions`: the table entry whose key is the longest
hostname that is a character-prefix of `name`, if any exists. -/
def longestPrefixEntry (name : String) : MachineTable → Option (String × Option String)
  | [] => none
  | e :: es =>
    match longestPrefixEntry name es with
    | none => if charPrefixOf e.1 name then some e else none
    | some b =>
      if charPrefixOf e.1 name && decide (b.1.length < e.1.length) then some e
      else some b

/-- `attach_desc` from `infra.py`: the value stored under the longest
matching prefix of `name`, or the empty string when no stored hostname is
a prefix of `name` or the stored value is null. -/
def attach_desc (trie : MachineTable) (name : String) : String :=
  match longestPrefixEntry name trie with
  | some e => e.2.getD ""
  | none => ""

/-- Stable insertion of a scored match into a list ordered by
nonincreasing score: the new element goes after every element scoring at
least as much. -/
def insertDesc (e : String × ℚ × Nat) :
    List (String × ℚ × Nat) → List (String × ℚ × Nat)
  | [] => [e]
  | x :: xs =>
    if decide (x.2.1 < e.2.1) then e :: x :: xs else x :: insertDesc e xs

/-- Stable sort of scored matches by nonincreasing score. -/
def sortDesc : List (String × ℚ × Nat) → List (String × ℚ × Nat)
  | [] => []
  | x :: xs => insertDesc x (sortDesc xs)

/-- Model of `rapidfuzz.process.extract(query, choices, limit=limit,
score_cutoff=score_cutoff)`, parameterised over the scoring function:
every choice is scored against the query, the scored matches are ordered
by decreasing score, matches scoring below the cutoff are dropped, and
the best `limit` matches are returned, each as a
`(choice, score, index)` triple. -/
def extract (score : String → String → ℚ) (query : String)
    (choices : List String) (limit : Nat) (score_cutoff : ℚ) :
    List (String × ℚ × Nat) :=
  let scored := choices.enum.map (fun p => (p.2, score query p.2, p.1))
  (((sortDesc scored).filter
      (fun e => decide (score_cutoff ≤ e.2.1))).take limit)

/-- The body of `target_devices_descriptions` from `infra.py`, generalised
over the two literal arguments `limit=25` and `score_cutoff=0.5` it passes
to `rapidfuzz.process.extract`: build the description trie from the
machines table, take the connected target devices, fuzzy-match the query
against their display names, and pair each matching device with its
attached description. -/
def search_pipeline (machines : MachineTable) (score : String → String → ℚ)
    (fetched : List Device) (q : String) (limit : Nat) (score_cutoff : ℚ) :
    List (String × Device) :=
  let t := machines
  let devices := target_devices fetched
  let names := devices.map (fun dev => dev.name)
  let matching := (extract score q names limit score_cutoff).map (fun e => e.1)
  (devices.filter (fun dev => matching.contains dev.name)).map
    (fun dev => (attach_desc t dev.name, dev))

/-- `target_devices_descriptions` from `infra.py`: with a query, the fuzzy
search with `limit=25` and `score_cutoff=0.5`; with no query, every
connected target device, each paired with its attached description. -/
def target_devices_descriptions (machines : MachineTable)
    (score : String → String → ℚ) (fetched : List Device)
    (query : Option String) : List (String × Device) :=
  match query with
  | some q => search_pipeline machines score fetched q 25 (mkRat 1 2)
  | none =>
    let t := machines
    let devices := target_devices fetched
    (devices.filter (fun dev => (devices.map (fun d => d.name)).contains dev.name)).map
      (fun dev => (attach_desc t dev.name, dev))

/-- The database write of `Infra.describe_server` in `infra.py`: a
PostgreSQL insert with `on_conflict_do_update` on the unique `hostname`
index, setting the excluded description — an upsert. -/
def upsertMachine (machines : MachineTable) (hostname desc : String) :
    MachineTable :=
  if machines.any (fun e => e.1 == hostname) then
    machines.map (fun e => if e.1 == hostname then (e.1, some desc) else e)
  else
    machines ++ [(hostname, some desc)]

/-- The state touched by the describe/search commands: the machines table
and the memo table of `target_devices_descriptions` (the `async_cached`
TTL cache, keyed by the query argument). -/
structure InfraState where
  machines : MachineTable
  descCache : List (Option String × List (String × Device))

/-- `Infra.describe_server` from `infra.py`: upsert the description, then
`target_devices_descriptions.clear()` — the whole memo table is dropped. -/
def describe_server (s : InfraState) (hostname desc : String) : InfraState :=
  { machines := upsertMachine s.machines hostname desc, descCache := [] }

/-- Modelled from the spec: the `async_cached` decorator
(`luhack_bot/utils/async_cache.py`) is not among the sources; per the
spec, cache entries are keyed by the query string and an invalidated
entry forces the next read to recompute. A call to the cached
`target_devices_descriptions`: a memo hit returns the stored value, a
miss computes the result and stores it. -/
def search_cached (s : InfraState) (score : String → String → ℚ)
    (fetched : List Device) (query : Option String) :
    List (String × Device) × InfraState :=
  match s.descCache.lookup query with
  | some r => (r, s)
  | none =>
    let r := target_devices_descriptions s.machines score fetched query
    (r, { s with descCache := (query, r) :: s.descCache })

/-- `retry_policy` from `infra.py`: abandon once more than 3 failures have
happened, otherwise retry after `fails * 0.1` seconds (delays are carried
as exact rationals). -/
def retry_policy (fails : Nat) : Bool × ℚ :=
  if fails > 3 then (true, 0) else (false, (fails : ℚ) * (1 / 10))

/-- The `aioretry.retry` driver around `generate_invite`, per that
library's semantics: run the attempt; on success return it; on the n-th
consecutive failure consult `retry_policy n` and either surface that very
failure (abandon) or sleep for the returned delay and try again. The
result records the attempt outcome surfaced to the caller (`none` only if
the fuel ran out first), the number of attempts made, and the list of
delays slept between attempts. `attempt n` is the outcome of the n-th
attempt of the `generate_invite` body (1-indexed). -/
def runRetry {E A : Type} (attempt : Nat → Except E A) :
    Nat → Nat → Option (Except E A) × Nat × List ℚ
  | 0, _ => (none, 0, [])
  | fuel + 1, fails =>
    match attempt (fails + 1) with
    | Except.ok a => (some (Except.ok a), 1, [])
    | Except.error e =>
      if (retry_policy (fails + 1)).1 then (some (Except.error e), 1, [])
      else
        let rest := runRetry attempt fuel (fails + 1)
        (rest.1, rest.2.1 + 1, (retry_policy (fails + 1)).2 :: rest.2.2)

/-- `generate_invite` under its `aioretry.retry(retry_policy)` decorator:
the retry driver starting with zero failures. Fuel 10 strictly dominates
the at most 4 attempts the policy permits. -/
def generate_invite_run {E A : Type} (attempt : Nat → Except E A) :
    Option (Except E A) × Nat × List ℚ :=
  runRetry attempt 10 0

/-- A stored writeup, the fields used by `NewWriteup.post` in
`luhack_site/writeups.py`. -/
structure Writeup where
  author_id : Nat
  title : String
  tags : List String
  content : String
  isPrivate : Bool
deriving DecidableEq, Repr

/-- The fields of the writeup creation form. -/
structure WriteupFormData where
  title : String
  tags : List String
  content : String
  isPrivate : Bool
deriving DecidableEq, Repr

/-- What `NewWriteup.post` sends back: a redirect to the created writeup,
or the re-rendered form carrying the validation errors. -/
inductive NewWriteupOutcome where
  | created : NewWriteupOutcome
  | formError : NewWriteupOutcome
deriving DecidableEq, Repr

/-- `NewWriteup.post` from `luhack_site/writeups.py`, database effects
only: `form.validate()` is the parameter `formValid`; if a stored writeup
already has the submitted title, `is_valid` is forced false and an error
is appended to the form's title field; only a valid form creates the
writeup, otherwise the form is re-rendered and the store is untouched. -/
def new_writeup_post (store : List Writeup) (author : Nat)
    (formValid : Bool) (form : WriteupFormData) :
    NewWriteupOutcome × List Writeup :=
  let dup := store.any (fun w => w.title == form.title)
  let is_valid := formValid && !dup
  if is_valid then
    (NewWriteupOutcome.created,
      store ++ [{ author_id := author, title := form.title, tags := form.tags,
                  content := form.content, isPrivate := form.isPrivate }])
  else (NewWriteupOutcome.formError, store)

/-- A todo row, the fields used by `luhack_bot/cogs/todos.py`; timestamps
are abstract instants (naturals). -/
structure Todo where
  id : Nat
  content : String
  assigned : Option Nat
  deadline : Option Nat
  started : Nat
  completed : Option Nat
  cancelled : Bool
deriving DecidableEq, Repr

/-- Modelled from the spec: the Todo database model
(`luhack_bot/db/models.py`) is not among the sources. Per the spec's data
model, todos are plain persisted entities whose lifecycle is fully owned
by the CRUD handlers, and `todo_new` passes only `assigned`, `deadline`
and `content`, so a freshly created todo is in progress: no completed
timestamp and not cancelled. -/
def newTodo (id : Nat) (now : Nat) (assigned : Option Nat)
    (deadline : Option Nat) (content : String) : Todo :=
  { id := id, content := content, assigned := assigned, deadline := deadline,
    started := now, completed := none, cancelled := false }

/-- The todo commands of `luhack_bot/cogs/todos.py` that write the table. -/
inductive TodoOp where
  | create (assigned : Option Nat) (deadline : Option Nat) (content : String)
  | complete (id : Nat)
  | cancel (id : Nat)
  | assign (id : Nat) (member : Nat)
  | unassign (id : Nat)
  | editContent (id : Nat) (content : String)
  | editDeadline (id : Nat) (deadline : Nat)
  | clearDeadline (id : Nat)

/-- `todo.update(...).apply()`: update the row with the given id. -/
def updateTodo (store : List Todo) (id : Nat) (f : Todo → Todo) : List Todo :=
  store.map (fun t => if t.id = id then f t else t)

/-- One todo command as a transition on the todo table; `now` is the
handler's `datetime.utcnow()`. `todo_mark_complete` sets `completed`;
`todo_mark_cancelled` sets `completed` and `cancelled` together, exactly
as `todo.update(completed=datetime.utcnow(), cancelled=True)` does. -/
def todo_apply (now : Nat) (store : List Todo) : TodoOp → List Todo
  | TodoOp.create a d c => store ++ [newTodo store.length now a d c]
  | TodoOp.complete i =>
      updateTodo store i (fun t => { t with completed := some now })
  | TodoOp.cancel i =>
      updateTodo store i
        (fun t => { t with completed := some now, cancelled := true })
  | TodoOp.assign i m => updateTodo store i (fun t => { t with assigned := some m })
  | TodoOp.unassign i => updateTodo store i (fun t => { t with assigned := none })
  | TodoOp.editContent i c => updateTodo store i (fun t => { t with content := c })
  | TodoOp.editDeadline i d =>
      updateTodo store i (fun t => { t with deadline := some d })
  | TodoOp.clearDeadline i =>
      updateTodo store i (fun t => { t with deadline := none })

/-- A run of todo commands from the empty table; each command carries the
instant it executes at. -/
def todo_run (ops : List (Nat × TodoOp)) : List Todo :=
  ops.foldl (fun s p => todo_apply p.1 s p.2) []

/-- `todo list`: rows with `completed == None` (ordering and the optional
assignee filter do not affect which rows appear and are omitted). -/
def todo_list_in_progress (store : List Todo) : List Todo :=
  store.filter (fun t => t.completed.isNone)

/-- `todo list completed`: rows with `completed != None` and
`cancelled == False`. -/
def todo_list_completed (store : List Todo) : List Todo :=
  store.filter (fun t => t.completed.isSome && !t.cancelled)

/-- `todo list cancelled`: rows with `completed != None` and
`cancelled == True`. -/
def todo_list_cancelled (store : List Todo) : List Todo :=
  store.filter (fun t => t.completed.isSome && t.cancelled)

/-- Modelled from the spec: the `async_cached` decorator
(`luhack_bot/utils/async_cache.py`) is not among the sources. Per the
spec's data model a cache entry is `{value, expiry timestamp}`, an entry
is never returned past its expiry, and expired entries are recomputed
synchronously by the next caller. State of one TTL-cached call site: the
optional entry and a count of upstream fetches. -/
structure TtlCache (α : Type) where
  entry : Option (α × Nat)
  fetches : Nat
deriving DecidableEq, Repr

/-- One sequential call through the TTL cache at instant `now`: a live
entry is returned as is; a missing or expired entry triggers an upstream
fetch (yielding `fetchVal`) which is stored with expiry `now + ttl`. -/
def cached_call {α : Type} (ttl : Nat) (fetchVal : α) (now : Nat)
    (s : TtlCache α) : α × TtlCache α :=
  match s.entry with
  | some (v, expiry) =>
    if now < expiry then (v, s)
    else (fetchVal, ⟨some (fetchVal, now + ttl), s.fetches + 1⟩)
  | none => (fetchVal, ⟨some (fetchVal, now + ttl), s.fetches + 1⟩)

/-- A sequence of sequential cached calls, collecting the returned values. -/
def cached_run {α : Type} (ttl : Nat) (fetchVal : α) :
    List Nat → TtlCache α → List α × TtlCache α
  | [], s => ([], s)
  | t :: ts, s =>
    let r := cached_call ttl fetchVal t s
    let rest := cached_run ttl fetchVal ts r.2
    (r.1 :: rest.1, rest.2)

/-- Where a cooperatively scheduled caller of the cached call is: about to
check the cache, suspended inside the upstream fetch, or finished with a
value. -/
inductive TaskPhase (α : Type) where
  | ready : TaskPhase α
  | fetching : TaskPhase α
  | done (v : α) : TaskPhase α
deriving DecidableEq, Repr

/-- Two concurrent callers of the same TTL-cached call site. -/
structure ConcCache (α : Type) where
  cache : TtlCache α
  taskA : TaskPhase α
  taskB : TaskPhase α
deriving DecidableEq, Repr

/-- One cooperative step of a caller: checking the cache is synchronous
(a live entry completes the call immediately; otherwise the caller
suspends into the upstream fetch, which is an await point); a suspended
caller later resumes, stores the fetched value and completes. The fetch
counter increments when the fetch completes. -/
def stepTask {α : Type} (ttl : Nat) (fetchVal : α) (now : Nat)
    (phase : TaskPhase α) (c : TtlCache α) : TaskPhase α × TtlCache α :=
  match phase with
  | TaskPhase.ready =>
    match c.entry with
    | some (v, expiry) =>
      if now < expiry then (TaskPhase.done v, c) else (TaskPhase.fetching, c)
    | none => (TaskPhase.fetching, c)
  | TaskPhase.fetching =>
    (TaskPhase.done fetchVal, ⟨some (fetchVal, now + ttl), c.fetches + 1⟩)
  | TaskPhase.done v => (TaskPhase.done v, c)

/-- Scheduler labels for the two concurrent callers. -/
inductive TaskId where
  | A : TaskId
  | B : TaskId

/-- Run one scheduled task for one cooperative step. -/
def concStep {α : Type} (ttl : Nat) (fetchVal : α) (now : Nat)
    (s : ConcCache α) : TaskId → ConcCache α
  | TaskId.A =>
    let r := stepTask ttl fetchVal now s.taskA s.cache
    { s with taskA := r.1, cache := r.2 }
  | TaskId.B =>
    let r := stepTask ttl fetchVal now s.taskB s.cache
    { s with taskB := r.1, cache := r.2 }

/-- Run a whole cooperative schedule of the two callers, both arriving at
instant `now` (hence within one TTL window). -/
def concRun {α : Type} (ttl : Nat) (fetchVal : α) (now : Nat)
    (sched : List TaskId) (s : ConcCache α) : ConcCache α :=
  sched.foldl (concStep ttl fetchVal now) s

/-- A device used in concrete evaluations: a connected lab target named
`labOne-a` with hostname `lab1`. -/
def devLabA : Device :=
  { addresses := ["100.64.0.1"], tags := ["tag:target"], connected := true,
    id := "nA", name := "labOne-a", fqdn := "labOne-a.ts.net",
    hostname := "lab1" }

/-- A second connected lab target with the same hostname `lab1`. -/
def devLabB : Device :=
  { addresses := ["100.64.0.2"], tags := ["tag:target"], connected := true,
    id := "nB", name := "labOne-b", fqdn := "labOne-b.ts.net",
    hostname := "lab1" }

/-- A concrete scoring function for evaluations: full score on an exact
match, zero otherwise (the behaviour of any rapidfuzz scorer on equal
strings is the maximal score). -/
def scoreExact (q n : String) : ℚ := if q = n then 100 else 0

/-- Twenty-six connected target devices all sharing the display name `a`
(the upstream enforces no uniqueness on names). -/
def manyDevs : List Device :=
  (List.range 26).map (fun i =>
    { addresses := [], tags := ["tag:target"], connected := true,
      id := toString i, name := "a", fqdn := "a", hostname := "a" })

/-- A concrete machines table for evaluations: a long hostname `labOne`
and a shorter one `la`, both prefixes of `labOne-a`. -/
def cMachines : MachineTable := [("labOne", some "fresh"), ("la", some "old")]

/-- A concrete todo command run for evaluations: create one todo at
instant 0, cancel it at instant 5. -/
def cTodoOps : List (Nat × TodoOp) :=
  [(0, TodoOp.create none none "tidy lab"), (5, TodoOp.cancel 0)]

/-- The row `cTodoOps` produces. -/
def cTodoRow : Todo :=
  { id := 0, content := "tidy lab", assigned := none, deadline := none,
    started := 0, completed := some 5, cancelled := true }

/-- C7: `target_devices` returns exactly the fetched devices that are tagged
`tag:target` and connected, and no others: membership in the returned list
is equivalent to membership in the fetched list together with the tag and
connectivity conditions, and the returned list is a sublist of the fetched
list (so no device is duplicated or invented). -/
theorem c7_target_devices_exactly_tagged_connected
    (fetched : List Device) (dev : Device) :
    (dev ∈ target_devices fetched ↔
      dev ∈ fetched ∧ "tag:target" ∈ dev.tags ∧ dev.connected = true) ∧
    (target_devices fetched).Sublist fetched := by
  constructor
  · simp [target_devices, List.mem_filter, List.elem_iff]
  · exact List.filter_sublist fetched

/-- C4: `get_devices_with_hostname h` returns exactly the cached (target)
devices whose hostname equals `h`; and whenever it returns more than one
device the join handler logs the warning (`warned = true`) and proceeds
with the first match. -/
theorem c4_hostname_filter_and_join_warning
    (fetched : List Device) (h : String) :
    (∀ dev, dev ∈ get_devices_with_hostname fetched h ↔
      dev ∈ target_devices fetched ∧ dev.hostname = h) ∧
    (∀ m rest, get_devices_with_hostname fetched h = m :: rest →
      rest ≠ [] →
      join_handler fetched h = JoinOutcome.proceed true m) := by
  constructor
  · intro dev
    simp [get_devices_with_hostname, List.mem_filter]
  · intro m rest heq hne
    unfold join_handler
    rw [heq]
    have : 1 < (m :: rest).length := by
      cases rest with
      | nil => exact absurd rfl hne
      | cons a l => simp [List.length_cons]
    simp [decide_eq_true this]
    exact List.length_pos.mpr hne

/-- Witness for C4: a cached list holding two devices with hostname `lab1`;
the lookup returns both and the join handler warns and picks the first. -/
theorem c4_hostname_filter_and_join_warning_witness :
    join_handler [devLabA, devLabB] "lab1" = JoinOutcome.proceed true devLabA :=
  (c4_hostname_filter_and_join_warning [devLabA, devLabB] "lab1").2
    devLabA [devLabB] (by decide) (by decide)

/-- C1: when every attempt of the invite issuance fails, exactly 4 attempts
are made, the delays slept before the three retries are 0.1, 0.2 and 0.3
seconds, and the surfaced outcome is the 4th attempt's failure (so no 5th
attempt happens). -/
theorem c1_retry_four_attempts {E A : Type} (attempt : Nat → Except E A)
    (errs : Nat → E) (hfail : ∀ n, attempt n = Except.error (errs n)) :
    generate_invite_run attempt =
      (some (Except.error (errs 4)), 4, [1 / 10, 2 / 10, 3 / 10]) := by
  have p1 : retry_policy 1 = (false, 1 / 10) := by norm_num [retry_policy]
  have p2 : retry_policy 2 = (false, 2 / 10) := by norm_num [retry_policy]
  have p3 : retry_policy 3 = (false, 3 / 10) := by norm_num [retry_policy]
  have p4 : retry_policy 4 = (true, 0) := by norm_num [retry_policy]
  simp [generate_invite_run, runRetry, hfail, p1, p2, p3, p4]

/-- Witness for C1: with attempts that always fail carrying their attempt
index, the run makes 4 attempts, sleeps 0.1, 0.2, 0.3 seconds and
surfaces the 4th error. -/
theorem c1_retry_four_attempts_witness :
    generate_invite_run (fun n => (Except.error n : Except Nat Unit)) =
      (some (Except.error 4), 4, [1 / 10, 2 / 10, 3 / 10]) :=
  c1_retry_four_attempts (fun n => Except.error n) (fun n => n) (fun _ => rfl)

/-- Counterexample for C8: describing a hostname that already has a
Machine Description is not surfaced as a validation error and does modify
the existing record — the upsert replaces the stored description, so the
old row is gone from the table. -/
theorem c8_duplicate_counterexample :
    upsertMachine [("lab1", some "old")] "lab1" "new" = [("lab1", some "new")] ∧
    ("lab1", some "old") ∉ upsertMachine [("lab1", some "old")] "lab1" "new" := by
  decide

/-- C8 as amended: a writeup creation whose title already exists is
rejected with the validation-error page and leaves the store untouched;
a describe on an existing hostname is an upsert — it creates no new row
(the hostname column is unchanged) and rewrites the existing row's
description in place, reporting success rather than a validation error. -/
theorem c8_conflict_behaviour :
    (∀ (store : List Writeup) (author : Nat) (formValid : Bool)
        (form : WriteupFormData),
      store.any (fun w => w.title == form.title) = true →
      new_writeup_post store author formValid form =
        (NewWriteupOutcome.formError, store)) ∧
    (∀ (machines : MachineTable) (h d : String),
      h ∈ machines.map Prod.fst →
      (upsertMachine machines h d).map Prod.fst = machines.map Prod.fst ∧
      (h, some d) ∈ upsertMachine machines h d) := by
  constructor
  · intro store author formValid form hdup
    simp [new_writeup_post, hdup]
  · intro machines h d hmem
    have hany : machines.any (fun e => e.1 == h) = true := by
      rcases List.mem_map.mp hmem with ⟨e, he, rfl⟩
      exact List.any_eq_true.mpr ⟨e, he, beq_self_eq_true _⟩
    constructor
    · simp only [upsertMachine, hany, if_true, List.map_map]
      refine List.map_congr_left ?_
      intro e _
      by_cases hh : e.1 = h <;> simp [hh]
    · rcases List.mem_map.mp hmem with ⟨e, he, hfst⟩
      simp only [upsertMachine, hany, if_true]
      refine List.mem_map.mpr ⟨e, he, ?_⟩
      simp [hfst, beq_self_eq_true]

/-- Witness for C8: a one-writeup store rejects a duplicate title without
writing, and a one-row machines table keeps its single hostname while the
description is rewritten by a duplicate describe. -/
theorem c8_conflict_behaviour_witness :
    (new_writeup_post
        [{ author_id := 1, title := "pwn", tags := [], content := "c",
           isPrivate := false }] 2 true
        { title := "pwn", tags := [], content := "d", isPrivate := true } =
      (NewWriteupOutcome.formError,
        [{ author_id := 1, title := "pwn", tags := [], content := "c",
           isPrivate := false }])) ∧
    (upsertMachine [("lab1", some "old")] "lab1" "new").map Prod.fst =
      ([("lab1", some "old")] : MachineTable).map Prod.fst ∧
    ("lab1", some "new") ∈ upsertMachine [("lab1", some "old")] "lab1" "new" :=
  ⟨c8_conflict_behaviour.1 _ 2 true _ (by decide),
    c8_conflict_behaviour.2 [("lab1", some "old")] "lab1" "new" (by decide)⟩

/-- Counterexample for C3: refresh is not single-flight. Two callers that
both arrive at instant 0 over an empty (equivalently, expired) cache and
interleave at the fetch await point both issue an upstream fetch: the
fetch counter ends at 2 although both calls happen inside one TTL window,
and both callers complete with the fetched value. -/
theorem c3_single_flight_counterexample :
    (concRun 60 (7 : Nat) 0 [TaskId.A, TaskId.B, TaskId.A, TaskId.B]
        ⟨⟨none, 0⟩, TaskPhase.ready, TaskPhase.ready⟩).cache.fetches = 2 ∧
    (concRun 60 (7 : Nat) 0 [TaskId.A, TaskId.B, TaskId.A, TaskId.B]
        ⟨⟨none, 0⟩, TaskPhase.ready, TaskPhase.ready⟩).taskA =
      TaskPhase.done 7 ∧
    (concRun 60 (7 : Nat) 0 [TaskId.A, TaskId.B, TaskId.A, TaskId.B]
        ⟨⟨none, 0⟩, TaskPhase.ready, TaskPhase.ready⟩).taskB =
      TaskPhase.done 7 := by
  decide

/-- C3 as amended: sequentially, within the TTL window of a successful
fetch every call returns the same cached in-memory value and no further
upstream fetch happens (the cache state, fetch counter included, is
unchanged); strict single-flight across concurrent callers does not hold. -/
theorem c3_sequential_window_same_value {α : Type} (ttl : Nat) (fetchVal : α)
    (v : α) (expiry : Nat) :
    ∀ (times : List Nat) (s : TtlCache α), s.entry = some (v, expiry) →
    (∀ t ∈ times, t < expiry) →
    cached_run ttl fetchVal times s = (times.map (fun _ => v), s)
  | [], s, _, _ => by simp [cached_run]
  | t :: ts, s, hentry, hwin => by
    have h1 : cached_call ttl fetchVal t s = (v, s) := by
      simp [cached_call, hentry, hwin t (List.mem_cons_self t ts)]
    have h2 := c3_sequential_window_same_value ttl fetchVal v expiry ts s hentry
      (fun u hu => hwin u (List.mem_cons_of_mem t hu))
    simp [cached_run, h1, h2]

/-- Witness for C3 as amended: with an entry holding value 7 until instant
60, three calls at instants 10, 30 and 59 all return 7 and leave the cache
(and its fetch count) unchanged. -/
theorem c3_sequential_window_same_value_witness :
    cached_run 60 (9 : Nat) [10, 30, 59] ⟨some (7, 60), 1⟩ =
      ([7, 7, 7], ⟨some (7, 60), 1⟩) :=
  c3_sequential_window_same_value 60 9 7 60 [10, 30, 59] ⟨some (7, 60), 1⟩
    rfl (by decide)

/-- Every todo command preserves the invariant that a cancelled todo has
its completed timestamp set. -/
theorem todo_apply_preserves_cancelled_completed (now : Nat) (s : List Todo)
    (op : TodoOp)
    (hs : ∀ t ∈ s, t.cancelled = true → t.completed.isSome = true) :
    ∀ t ∈ todo_apply now s op, t.cancelled = true → t.completed.isSome = true := by
  intro t ht hc
  cases op with
  | create a d c =>
    rcases List.mem_append.mp ht with hmem | hmem
    · exact hs t hmem hc
    · simp only [List.mem_singleton] at hmem
      subst hmem
      simp [newTodo] at hc
  | complete i =>
    rcases List.mem_map.mp ht with ⟨u, hu, rfl⟩
    by_cases hid : u.id = i
    · simp [hid]
    · simp only [hid, if_false] at hc ⊢
      exact hs u hu hc
  | cancel i =>
    rcases List.mem_map.mp ht with ⟨u, hu, rfl⟩
    by_cases hid : u.id = i
    · simp [hid]
    · simp only [hid, if_false] at hc ⊢
      exact hs u hu hc
  | assign i m =>
    rcases List.mem_map.mp ht with ⟨u, hu, rfl⟩
    by_cases hid : u.id = i
    · simp only [hid, if_true] at hc ⊢
      exact hs u hu hc
    · simp only [hid, if_false] at hc ⊢
      exact hs u hu hc
  | unassign i =>
    rcases List.mem_map.mp ht with ⟨u, hu, rfl⟩
    by_cases hid : u.id = i
    · simp only [hid, if_true] at hc ⊢
      exact hs u hu hc
    · simp only [hid, if_false] at hc ⊢
      exact hs u hu hc
  | editContent i c =>
    rcases List.mem_map.mp ht with ⟨u, hu, rfl⟩
    by_cases hid : u.id = i
    · simp only [hid, if_true] at hc ⊢
      exact hs u hu hc
    · simp only [hid, if_false] at hc ⊢
      exact hs u hu hc
  | editDeadline i d =>
    rcases List.mem_map.mp ht with ⟨u, hu, rfl⟩
    by_cases hid : u.id = i
    · simp only [hid, if_true] at hc ⊢
      exact hs u hu hc
    · simp only [hid, if_false] at hc ⊢
      exact hs u hu hc
  | clearDeadline i =>
    rcases List.mem_map.mp ht with ⟨u, hu, rfl⟩
    by_cases hid : u.id = i
    · simp only [hid, if_true] at hc ⊢
      exact hs u hu hc
    · simp only [hid, if_false] at hc ⊢
      exact hs u hu hc

/-- The invariant holds of every table reachable by a command run. -/
theorem todo_run_cancelled_completed :
    ∀ (ops : List (Nat × TodoOp)) (s : List Todo),
    (∀ t ∈ s, t.cancelled = true → t.completed.isSome = true) →
    ∀ t ∈ ops.foldl (fun s p => todo_apply p.1 s p.2) s,
      t.cancelled = true → t.completed.isSome = true
  | [], _, hs => hs
  | p :: ops, s, hs =>
    todo_run_cancelled_completed ops (todo_apply p.1 s p.2)
      (todo_apply_preserves_cancelled_completed p.1 s p.2 hs)

/-- C10: cancelling sets both the completed timestamp and the cancelled
flag; in every table reachable by a command run, a cancelled todo has its
completed timestamp set; and every stored todo appears in exactly one of
the in-progress, completed and cancelled listings. -/
theorem c10_cancel_sets_completed_and_listings_partition
    (ops : List (Nat × TodoOp)) :
    (∀ t ∈ todo_run ops, t.cancelled = true → t.completed.isSome = true) ∧
    (∀ now i t, t ∈ todo_apply now (todo_run ops) (TodoOp.cancel i) →
      t.id = i → t.completed = some now ∧ t.cancelled = true) ∧
    (∀ t ∈ todo_run ops,
      (t ∈ todo_list_in_progress (todo_run ops) ∧
        t ∉ todo_list_completed (todo_run ops) ∧
        t ∉ todo_list_cancelled (todo_run ops)) ∨
      (t ∉ todo_list_in_progress (todo_run ops) ∧
        t ∈ todo_list_completed (todo_run ops) ∧
        t ∉ todo_list_cancelled (todo_run ops)) ∨
      (t ∉ todo_list_in_progress (todo_run ops) ∧
        t ∉ todo_list_completed (todo_run ops) ∧
        t ∈ todo_list_cancelled (todo_run ops))) := by
  refine ⟨?_, ?_, ?_⟩
  · exact todo_run_cancelled_completed ops [] (by simp)
  · intro now i t ht hid
    rcases List.mem_map.mp ht with ⟨u, _, rfl⟩
    by_cases h : u.id = i
    · simp [h]
    · simp only [h, if_false] at hid
  · intro t ht
    simp only [todo_list_in_progress, todo_list_completed, todo_list_cancelled,
      List.mem_filter, ht, true_and]
    cases hcomp : t.completed with
    | none => simp
    | some n =>
      cases hcanc : t.cancelled with
      | false => simp
      | true => simp

/-- Witness for C10: create then cancel yields one row that is cancelled
with its completed timestamp set, and that row sits only in the cancelled
listing. -/
theorem c10_cancel_sets_completed_and_listings_partition_witness :
    cTodoRow ∈ todo_run cTodoOps ∧
    (cTodoRow.cancelled = true → cTodoRow.completed.isSome = true) ∧
    ((cTodoRow ∈ todo_list_in_progress (todo_run cTodoOps) ∧
        cTodoRow ∉ todo_list_completed (todo_run cTodoOps) ∧
        cTodoRow ∉ todo_list_cancelled (todo_run cTodoOps)) ∨
      (cTodoRow ∉ todo_list_in_progress (todo_run cTodoOps) ∧
        cTodoRow ∈ todo_list_completed (todo_run cTodoOps) ∧
        cTodoRow ∉ todo_list_cancelled (todo_run cTodoOps)) ∨
      (cTodoRow ∉ todo_list_in_progress (todo_run cTodoOps) ∧
        cTodoRow ∉ todo_list_completed (todo_run cTodoOps) ∧
        cTodoRow ∈ todo_list_cancelled (todo_run cTodoOps))) :=
  ⟨by decide,
    (c10_cancel_sets_completed_and_listings_partition cTodoOps).1 cTodoRow
      (by decide),
    (c10_cancel_sets_completed_and_listings_partition cTodoOps).2.2 cTodoRow
      (by decide)⟩

/-- Two character-prefixes of the same string with equal length are equal. -/
theorem charPrefixOf_eq_of_length_eq {a b n : String}
    (ha : charPrefixOf a n = true) (hb : charPrefixOf b n = true)
    (hl : a.length = b.length) : a = b := by
  have ha' : a.data <+: n.data := List.isPrefixOf_iff_prefix.mp ha
  have hb' : b.data <+: n.data := List.isPrefixOf_iff_prefix.mp hb
  have hlen : a.data.length = b.data.length := hl
  have hab : a.data <+: b.data :=
    List.prefix_of_prefix_length_le ha' hb' (le_of_eq hlen)
  exact String.ext (hab.eq_of_length hlen)

/-- Soundness of the longest-prefix lookup: a `none` result means no key
matches, and a `some` result is a matching entry of maximal key length. -/
theorem longestPrefixEntry_spec (name : String) :
    ∀ entries : MachineTable,
    (longestPrefixEntry name entries = none →
      ∀ e ∈ entries, charPrefixOf e.1 name = false) ∧
    (∀ r, longestPrefixEntry name entries = some r →
      r ∈ entries ∧ charPrefixOf r.1 name = true ∧
      ∀ e ∈ entries, charPrefixOf e.1 name = true → e.1.length ≤ r.1.length)
  | [] => by simp [longestPrefixEntry]
  | e :: es => by
    obtain ⟨ihn, ihs⟩ := longestPrefixEntry_spec name es
    constructor
    · intro hnone
      cases hrest : longestPrefixEntry name es with
      | none =>
        simp only [longestPrefixEntry, hrest] at hnone
        by_cases hp : charPrefixOf e.1 name
        · simp [hp] at hnone
        · intro x hx
          rcases List.mem_cons.mp hx with rfl | hx
          · simpa using hp
          · exact ihn hrest x hx
      | some b =>
        simp only [longestPrefixEntry, hrest] at hnone
        split at hnone <;> simp_all
    · intro r hr
      cases hrest : longestPrefixEntry name es with
      | none =>
        simp only [longestPrefixEntry, hrest] at hr
        by_cases hp : charPrefixOf e.1 name
        · simp only [hp, if_true] at hr
          obtain rfl : e = r := by simpa using hr
          refine ⟨List.mem_cons_self _ _, hp, ?_⟩
          intro x hx hxp
          rcases List.mem_cons.mp hx with rfl | hx
          · exact le_refl _
          · exact absurd hxp (by simp [ihn hrest x hx])
        · simp [hp] at hr
      | some b =>
        have hb := ihs b hrest
        simp only [longestPrefixEntry, hrest] at hr
        by_cases hcond : charPrefixOf e.1 name && decide (b.1.length < e.1.length)
        · rw [if_pos hcond] at hr
          obtain rfl : e = r := by simpa using hr
          rw [Bool.and_eq_true] at hcond
          have hp : charPrefixOf e.1 name = true := hcond.1
          have hlt : b.1.length < e.1.length := by
            have h2 := hcond.2
            simpa using h2
          refine ⟨List.mem_cons_self _ _, hp, ?_⟩
          intro x hx hxp
          rcases List.mem_cons.mp hx with rfl | hx
          · exact le_refl _
          · exact le_trans (hb.2.2 x hx hxp) (le_of_lt hlt)
        · rw [if_neg hcond] at hr
          obtain rfl : b = r := by simpa using hr
          refine ⟨List.mem_cons_of_mem _ hb.1, hb.2.1, ?_⟩
          intro x hx hxp
          rcases List.mem_cons.mp hx with rfl | hx
          · have hnlt : ¬ (b.1.length < x.1.length) := by
              intro hlt
              exact hcond (by simp [hxp, hlt])
            exact le_of_not_lt hnlt
          · exact hb.2.2 x hx hxp

/-- Completeness of the longest-prefix lookup under unique keys: an entry
that matches and has maximal key length among matches is the result. -/
theorem longestPrefixEntry_of_maximal (name : String) :
    ∀ (entries : MachineTable) (r : String × Option String),
    (entries.map Prod.fst).Nodup →
    r ∈ entries → charPrefixOf r.1 name = true →
    (∀ e ∈ entries, charPrefixOf e.1 name = true → e.1.length ≤ r.1.length) →
    longestPrefixEntry name entries = some r
  | [], r, _, hmem, _, _ => absurd hmem (List.not_mem_nil r)
  | e :: es, r, hnd, hmem, hp, hmax => by
    rw [List.map_cons] at hnd
    have hcons := List.nodup_cons.mp hnd
    rcases List.mem_cons.mp hmem with rfl | hmem'
    · cases hrest : longestPrefixEntry name es with
      | none =>
        simp [longestPrefixEntry, hrest, hp]
      | some b =>
        have hb := (longestPrefixEntry_spec name es).2 b hrest
        have hble : b.1.length ≤ r.1.length :=
          hmax b (List.mem_cons_of_mem _ hb.1) hb.2.1
        by_cases hlt : b.1.length < r.1.length
        · simp [longestPrefixEntry, hrest, hp, hlt]
        · have hlen : b.1.length = r.1.length :=
            le_antisymm hble (le_of_not_lt hlt)
          have hkey : b.1 = r.1 := charPrefixOf_eq_of_length_eq hb.2.1 hp hlen
          have : r.1 ∈ es.map Prod.fst := hkey ▸ List.mem_map_of_mem Prod.fst hb.1
          exact absurd this hcons.1
    · have hmax' : ∀ x ∈ es, charPrefixOf x.1 name = true →
          x.1.length ≤ r.1.length :=
        fun x hx hxp => hmax x (List.mem_cons_of_mem _ hx) hxp
      have hrest := longestPrefixEntry_of_maximal name es r hcons.2 hmem' hp hmax'
      by_cases hpe : charPrefixOf e.1 name
      · have hle : e.1.length ≤ r.1.length := hmax e (List.mem_cons_self _ _) hpe
        have hnlt : ¬ (r.1.length < e.1.length) := not_lt.mpr hle
        simp [longestPrefixEntry, hrest, hpe, hnlt]
      · simp [longestPrefixEntry, hrest, hpe]

/-- `attach_desc` returns the stored value (with null read as the empty
string) of the maximal-length matching entry. -/
theorem attach_desc_of_maximal (machines : MachineTable) (name k : String)
    (v : Option String) (hnd : (machines.map Prod.fst).Nodup)
    (hmem : (k, v) ∈ machines) (hp : charPrefixOf k name = true)
    (hmax : ∀ e ∈ machines, charPrefixOf e.1 name = true →
      e.1.length ≤ k.length) :
    attach_desc machines name = v.getD "" := by
  rw [attach_desc,
    longestPrefixEntry_of_maximal name machines (k, v) hnd hmem hp hmax]

/-- `attach_desc` returns the empty string when no stored hostname is a
prefix of the name. -/
theorem attach_desc_of_no_match (machines : MachineTable) (name : String)
    (h : ∀ e ∈ machines, charPrefixOf e.1 name = false) :
    attach_desc machines name = "" := by
  cases hres : longestPrefixEntry name machines with
  | none => simp [attach_desc, hres]
  | some r =>
    have hr := (longestPrefixEntry_spec name machines).2 r hres
    have hfalse := h r hr.1
    rw [hr.2.1] at hfalse
    cases hfalse

/-- Decomposition of a `target_devices_descriptions` result pair: the
device is a connected target and the paired string is its attached
description under the device's display name. -/
theorem tdd_mem_decomp (machines : MachineTable) (score : String → String → ℚ)
    (fetched : List Device) (query : Option String) (desc : String)
    (dev : Device)
    (hmem : (desc, dev) ∈ target_devices_descriptions machines score fetched query) :
    dev ∈ target_devices fetched ∧ desc = attach_desc machines dev.name := by
  cases query with
  | none =>
    simp only [target_devices_descriptions] at hmem
    rcases List.mem_map.mp hmem with ⟨x, hx, hpair⟩
    rw [Prod.mk.injEq] at hpair
    obtain ⟨hdesc, rfl⟩ := hpair
    exact ⟨(List.mem_filter.mp hx).1, hdesc.symm⟩
  | some q =>
    simp only [target_devices_descriptions, search_pipeline] at hmem
    rcases List.mem_map.mp hmem with ⟨x, hx, hpair⟩
    rw [Prod.mk.injEq] at hpair
    obtain ⟨hdesc, rfl⟩ := hpair
    exact ⟨(List.mem_filter.mp hx).1, hdesc.symm⟩

/-- C9: in every search result, the description paired with a device is
determined by the device's display name (not its hostname field): it is
the value stored under the longest stored hostname that is a prefix of
the display name, and it is the empty string — not an absent value — when
no stored hostname matches or the stored value is null. -/
theorem c9_description_is_longest_prefix_value (machines : MachineTable)
    (score : String → String → ℚ) (fetched : List Device)
    (query : Option String) (desc : String) (dev : Device)
    (hnd : (machines.map Prod.fst).Nodup)
    (hmem : (desc, dev) ∈ target_devices_descriptions machines score fetched query) :
    ((∀ e ∈ machines, charPrefixOf e.1 dev.name = false) → desc = "") ∧
    (∀ k v, (k, v) ∈ machines → charPrefixOf k dev.name = true →
      (∀ e ∈ machines, charPrefixOf e.1 dev.name = true →
        e.1.length ≤ k.length) →
      desc = v.getD "") := by
  obtain ⟨_, rfl⟩ := tdd_mem_decomp machines score fetched query desc dev hmem
  constructor
  · intro hno
    exact attach_desc_of_no_match machines dev.name hno
  · intro k v hkv hp hmax
    exact attach_desc_of_maximal machines dev.name k v hnd hkv hp hmax

/-- Witness for C9: with stored hostnames `labOne` and `la`, both prefixes
of the display name `labOne-a`, the result pairs the device with the
description under the longer key. -/
theorem c9_description_is_longest_prefix_value_witness :
    (("fresh", devLabA) ∈
      target_devices_descriptions cMachines scoreExact [devLabA] none) ∧
    "fresh" = (some "fresh").getD "" :=
  ⟨by decide,
    (c9_description_is_longest_prefix_value cMachines scoreExact [devLabA]
        none "fresh" devLabA (by decide) (by decide)).2
      "labOne" (some "fresh") (by decide) (by decide) (by decide)⟩

/-- The existence test of the upsert agrees with key membership. -/
theorem upsertMachine_any_iff (machines : MachineTable) (h : String) :
    machines.any (fun e => e.1 == h) = true ↔ h ∈ machines.map Prod.fst := by
  constructor
  · intro hany
    rcases List.any_eq_true.mp hany with ⟨e, he, heq⟩
    exact List.mem_map.mpr ⟨e, he, by simpa using heq⟩
  · intro hmem
    rcases List.mem_map.mp hmem with ⟨e, he, hfst⟩
    exact List.any_eq_true.mpr ⟨e, he, by simp [hfst]⟩

/-- The upsert always leaves a row `(h, some d)` in the table. -/
theorem upsertMachine_mem (machines : MachineTable) (h d : String) :
    (h, some d) ∈ upsertMachine machines h d := by
  by_cases hany : machines.any (fun e => e.1 == h) = true
  · rcases List.any_eq_true.mp hany with ⟨e, he, heq⟩
    have hkey : e.1 = h := by simpa using heq
    simp only [upsertMachine, hany, if_true]
    refine List.mem_map.mpr ⟨e, he, ?_⟩
    simp [hkey]
  · simp [upsertMachine, hany]

/-- The upsert preserves uniqueness of the hostname column. -/
theorem upsertMachine_keys_nodup (machines : MachineTable) (h d : String)
    (hnd : (machines.map Prod.fst).Nodup) :
    ((upsertMachine machines h d).map Prod.fst).Nodup := by
  by_cases hany : machines.any (fun e => e.1 == h) = true
  · have hkeys : (upsertMachine machines h d).map Prod.fst =
        machines.map Prod.fst := by
      simp only [upsertMachine, hany, if_true, List.map_map]
      refine List.map_congr_left ?_
      intro e _
      by_cases hh : e.1 = h <;> simp [hh]
    rw [hkeys]
    exact hnd
  · have hnotmem : h ∉ machines.map Prod.fst :=
      fun hmem => hany ((upsertMachine_any_iff machines h).mpr hmem)
    simp only [upsertMachine, hany, if_false, List.map_append]
    simp [List.nodup_append, hnd, hnotmem]

/-- C2: after a describe of hostname `h` with description `d`, an
immediately following cached search with no query pairs `d` with every
connected target device of whose display name `h` is the longest stored
prefix — whatever the prior memo cache held, since the describe clears
it. -/
theorem c2_describe_then_search_roundtrip (s : InfraState) (h d : String)
    (score : String → String → ℚ) (fetched : List Device) (dev : Device)
    (hnd : (s.machines.map Prod.fst).Nodup)
    (hdev : dev ∈ target_devices fetched)
    (hp : charPrefixOf h dev.name = true)
    (hmax : ∀ e ∈ upsertMachine s.machines h d,
      charPrefixOf e.1 dev.name = true → e.1.length ≤ h.length) :
    (d, dev) ∈ (search_cached (describe_server s h d) score fetched none).1 := by
  have hattach :
      attach_desc (upsertMachine s.machines h d) dev.name = d :=
    attach_desc_of_maximal (upsertMachine s.machines h d) dev.name h (some d)
      (upsertMachine_keys_nodup s.machines h d hnd)
      (upsertMachine_mem s.machines h d) hp hmax
  have hname : dev.name ∈ (target_devices fetched).map (fun d => d.name) :=
    List.mem_map_of_mem (fun d => d.name) hdev
  simp only [search_cached, describe_server, List.lookup]
  simp only [target_devices_descriptions]
  refine List.mem_map.mpr ⟨dev, ?_, ?_⟩
  · exact List.mem_filter.mpr ⟨hdev, by simpa [List.elem_iff] using hname⟩
  · rw [hattach]

/-- Witness for C2: a stale memo cache and a shorter stored hostname `la`;
describing `labOne` and searching with no query immediately returns the
fresh description for the device displayed as `labOne-a`. -/
theorem c2_describe_then_search_roundtrip_witness :
    ("fresh", devLabA) ∈
      (search_cached
        (describe_server
          { machines := [("la", some "old")],
            descCache := [(none, [("stale", devLabB)])] }
          "labOne" "fresh")
        scoreExact [devLabA] none).1 :=
  c2_describe_then_search_roundtrip
    { machines := [("la", some "old")],
      descCache := [(none, [("stale", devLabB)])] }
    "labOne" "fresh" scoreExact [devLabA] devLabA
    (by decide) (by decide) (by decide) (by decide)

/-- Membership through stable insertion. -/
theorem mem_insertDesc (e x : String × ℚ × Nat) :
    ∀ l : List (String × ℚ × Nat), x ∈ insertDesc e l ↔ x = e ∨ x ∈ l
  | [] => by simp [insertDesc]
  | y :: ys => by
    simp only [insertDesc]
    by_cases hlt : y.2.1 < e.2.1
    · rw [if_pos (decide_eq_true hlt)]
      exact List.mem_cons
    · rw [if_neg (by simpa using hlt)]
      rw [List.mem_cons, mem_insertDesc e x ys, List.mem_cons]
      tauto

/-- Stable insertion preserves the nonincreasing-score ordering. -/
theorem pairwise_insertDesc (e : String × ℚ × Nat) :
    ∀ l, l.Pairwise (fun a b => b.2.1 ≤ a.2.1) →
    (insertDesc e l).Pairwise (fun a b => b.2.1 ≤ a.2.1)
  | [], _ => by simp [insertDesc]
  | y :: ys, hp => by
    obtain ⟨hy, hys⟩ := List.pairwise_cons.mp hp
    simp only [insertDesc]
    by_cases hlt : y.2.1 < e.2.1
    · rw [if_pos (decide_eq_true hlt)]
      refine List.pairwise_cons.mpr ⟨?_, hp⟩
      intro z hz
      rcases List.mem_cons.mp hz with rfl | hz
      · exact le_of_lt hlt
      · exact le_trans (hy z hz) (le_of_lt hlt)
    · rw [if_neg (by simpa using hlt)]
      refine List.pairwise_cons.mpr ⟨?_, pairwise_insertDesc e ys hys⟩
      intro z hz
      rcases (mem_insertDesc e z ys).mp hz with rfl | hz
      · exact le_of_not_lt hlt
      · exact hy z hz

/-- The sort orders by nonincreasing score. -/
theorem pairwise_sortDesc :
    ∀ l, (sortDesc l).Pairwise (fun a b => b.2.1 ≤ a.2.1)
  | [] => by simp [sortDesc]
  | x :: xs => pairwise_insertDesc x (sortDesc xs) (pairwise_sortDesc xs)

/-- The sort has the same members as its input. -/
theorem mem_sortDesc (x : String × ℚ × Nat) :
    ∀ l, x ∈ sortDesc l ↔ x ∈ l
  | [] => Iff.rfl
  | y :: ys => by
    simp only [sortDesc]
    rw [mem_insertDesc, mem_sortDesc x ys, List.mem_cons]

/-- In a list ordered by nonincreasing score, filtering by a score
threshold keeps a prefix: the filter equals the takeWhile. -/
theorem filter_cutoff_eq_takeWhile (c : ℚ) :
    ∀ l : List (String × ℚ × Nat),
    l.Pairwise (fun a b => b.2.1 ≤ a.2.1) →
    l.filter (fun e => decide (c ≤ e.2.1)) =
      l.takeWhile (fun e => decide (c ≤ e.2.1))
  | [], _ => rfl
  | x :: xs, hp => by
    obtain ⟨hx, hxs⟩ := List.pairwise_cons.mp hp
    by_cases hc : c ≤ x.2.1
    · simp [List.filter_cons, List.takeWhile_cons, hc,
        filter_cutoff_eq_takeWhile c xs hxs]
    · simp only [List.filter_cons, List.takeWhile_cons, decide_eq_true_eq,
        if_neg hc]
      exact List.filter_eq_nil_iff.mpr (fun y hy => by
        simp only [decide_eq_true_eq]
        exact fun hcy => hc (le_trans hcy (hx y hy)))

/-- Every extract result has at most `limit` entries. -/
theorem extract_length_le (score : String → String → ℚ) (q : String)
    (choices : List String) (limit : Nat) (c : ℚ) :
    (extract score q choices limit c).length ≤ limit := by
  simp only [extract]
  exact List.length_take_le _ _

/-- Every extract result entry scores at least the cutoff, and its score
is the scorer applied to its choice string. -/
theorem extract_mem_spec (score : String → String → ℚ) (q : String)
    (choices : List String) (limit : Nat) (c : ℚ) :
    ∀ t ∈ extract score q choices limit c,
      c ≤ t.2.1 ∧ t.2.1 = score q t.1 := by
  intro t ht
  simp only [extract] at ht
  have h1 := List.mem_of_mem_take ht
  have h2 := List.mem_filter.mp h1
  have hscore : c ≤ t.2.1 := by simpa using h2.2
  have h3 : t ∈ choices.enum.map (fun p => (p.2, score q p.2, p.1)) :=
    (mem_sortDesc t _).mp h2.1
  rcases List.mem_map.mp h3 with ⟨p, _, rfl⟩
  exact ⟨hscore, rfl⟩

/-- Raising the cutoff shrinks the extract result pointwise: every entry
surviving the higher cutoff also survives the lower one, limit included. -/
theorem extract_subset_of_cutoff_le (score : String → String → ℚ) (q : String)
    (choices : List String) (limit : Nat) {c c' : ℚ} (hcc : c ≤ c') :
    extract score q choices limit c' ⊆ extract score q choices limit c := by
  intro t ht
  simp only [extract] at ht ⊢
  have hsorted :
      (sortDesc (choices.enum.map (fun p => (p.2, score q p.2, p.1)))).Pairwise
        (fun a b => b.2.1 ≤ a.2.1) := pairwise_sortDesc _
  have hBsorted := hsorted.filter (fun e => decide (c ≤ e.2.1))
  have hff :
      ((sortDesc (choices.enum.map (fun p => (p.2, score q p.2, p.1)))).filter
          (fun e => decide (c ≤ e.2.1))).filter (fun e => decide (c' ≤ e.2.1)) =
        (sortDesc (choices.enum.map (fun p => (p.2, score q p.2, p.1)))).filter
          (fun e => decide (c' ≤ e.2.1)) := by
    rw [List.filter_filter]
    refine List.filter_congr ?_
    intro a _
    by_cases h : c' ≤ a.2.1
    · simp [h, le_trans hcc h]
    · simp [h]
  have htw := filter_cutoff_eq_takeWhile c'
    ((sortDesc (choices.enum.map (fun p => (p.2, score q p.2, p.1)))).filter
      (fun e => decide (c ≤ e.2.1))) hBsorted
  have hpre := List.takeWhile_prefix (l :=
    (sortDesc (choices.enum.map (fun p => (p.2, score q p.2, p.1)))).filter
      (fun e => decide (c ≤ e.2.1))) (fun e => decide (c' ≤ e.2.1))
  have htake := List.prefix_iff_eq_take.mp hpre
  rw [← hff, htw, htake, List.take_take] at ht
  have hcomm :
      ((sortDesc (choices.enum.map (fun p => (p.2, score q p.2, p.1)))).filter
          (fun e => decide (c ≤ e.2.1))).take
        (limit ⊓ (((sortDesc (choices.enum.map (fun p => (p.2, score q p.2, p.1)))).filter
            (fun e => decide (c ≤ e.2.1))).takeWhile
              (fun e => decide (c' ≤ e.2.1))).length) =
      (((sortDesc (choices.enum.map (fun p => (p.2, score q p.2, p.1)))).filter
          (fun e => decide (c ≤ e.2.1))).take limit).take
        ((((sortDesc (choices.enum.map (fun p => (p.2, score q p.2, p.1)))).filter
            (fun e => decide (c ≤ e.2.1))).takeWhile
              (fun e => decide (c' ≤ e.2.1))).length) := by
    rw [List.take_take, Nat.min_comm]
  rw [hcomm] at ht
  exact List.take_subset _ _ ht

/-- Devices with pairwise distinct display names filtered by membership of
their name in a list are at most as many as that list's entries. -/
theorem filter_contains_length_le (devices : List Device)
    (matching : List String)
    (hnd : (devices.map (fun d => d.name)).Nodup) :
    (devices.filter (fun dev => matching.contains dev.name)).length ≤
      matching.length := by
  have hsub :
      ((devices.filter (fun dev => matching.contains dev.name)).map
        (fun d => d.name)).Sublist (devices.map (fun d => d.name)) :=
    (List.filter_sublist devices).map _
  have hnd' := hsub.nodup hnd
  have hss :
      ∀ x ∈ (devices.filter (fun dev => matching.contains dev.name)).map
        (fun d => d.name), x ∈ matching := by
    intro x hx
    rcases List.mem_map.mp hx with ⟨dev, hdev, rfl⟩
    have hp := (List.mem_filter.mp hdev).2
    simpa [List.elem_iff] using hp
  have hfs :
      ((devices.filter (fun dev => matching.contains dev.name)).map
        (fun d => d.name)).toFinset ⊆ matching.toFinset := by
    intro x hx
    rw [List.mem_toFinset] at hx ⊢
    exact hss x hx
  calc (devices.filter (fun dev => matching.contains dev.name)).length
      = ((devices.filter (fun dev => matching.contains dev.name)).map
          (fun d => d.name)).length := (List.length_map _ _).symm
    _ = ((devices.filter (fun dev => matching.contains dev.name)).map
          (fun d => d.name)).toFinset.card :=
        (List.toFinset_card_of_nodup hnd').symm
    _ ≤ matching.toFinset.card := Finset.card_le_card hfs
    _ ≤ matching.length := List.toFinset_card_le matching

/-- Counterexample for C5: with 26 connected target devices all sharing
the display name `a` (upstream enforces no uniqueness on display names),
a search for `a` returns 26 devices — more than the 25 the claim allows —
because the fuzzy extract is capped at 25 matched names while the result
collects every device whose name is among them. -/
theorem c5_limit_counterexample :
    (target_devices_descriptions [] scoreExact manyDevs (some "a")).length
      = 26 := by
  decide

/-- C5 as amended: when the cached devices have pairwise distinct display
names, a query search returns at most 25 devices; and in every case each
returned device's name scored at least the 0.5 cutoff against the query,
and it is paired with its locally stored description. -/
theorem c5_search_cutoff_and_descriptions (machines : MachineTable)
    (score : String → String → ℚ) (fetched : List Device) (q : String) :
    (((target_devices fetched).map (fun d => d.name)).Nodup →
      (target_devices_descriptions machines score fetched (some q)).length ≤ 25) ∧
    ∀ desc dev,
      (desc, dev) ∈ target_devices_descriptions machines score fetched (some q) →
      (1 / 2 : ℚ) ≤ score q dev.name ∧ desc = attach_desc machines dev.name := by
  have hhalf : (mkRat 1 2 : ℚ) = 1 / 2 := by
    rw [Rat.mkRat_eq_div]
    norm_num
  constructor
  · intro hnd
    simp only [target_devices_descriptions, search_pipeline, List.length_map]
    refine le_trans
      (filter_contains_length_le (target_devices fetched) _ hnd) ?_
    rw [List.length_map]
    exact extract_length_le score q _ 25 (mkRat 1 2)
  · intro desc dev hmem
    have hdec :=
      tdd_mem_decomp machines score fetched (some q) desc dev hmem
    refine ⟨?_, hdec.2⟩
    simp only [target_devices_descriptions, search_pipeline] at hmem
    rcases List.mem_map.mp hmem with ⟨x, hx, hpair⟩
    rw [Prod.mk.injEq] at hpair
    obtain ⟨_, rfl⟩ := hpair
    have hp := (List.mem_filter.mp hx).2
    have hnm : x.name ∈ (extract score q
        ((target_devices fetched).map (fun d => d.name)) 25
        (mkRat 1 2)).map (fun e => e.1) := by
      simpa [List.elem_iff] using hp
    rcases List.mem_map.mp hnm with ⟨t, ht, hfst⟩
    have hspec := extract_mem_spec score q
      ((target_devices fetched).map (fun d => d.name)) 25 (mkRat 1 2) t ht
    calc (1 / 2 : ℚ) = mkRat 1 2 := hhalf.symm
      _ ≤ t.2.1 := hspec.1
      _ = score q x.name := by rw [hspec.2, hfst]

/-- Witness for C5 as amended: two distinctly named targets, a query
matching one of them exactly; the single result scores above the cutoff
and carries the stored description for the longer hostname. -/
theorem c5_search_cutoff_and_descriptions_witness :
    ((((target_devices [devLabA, devLabB]).map (fun d => d.name)).Nodup) ∧
      (target_devices_descriptions cMachines scoreExact [devLabA, devLabB]
        (some "labOne-a")).length ≤ 25) ∧
    ((1 / 2 : ℚ) ≤ scoreExact "labOne-a" devLabA.name ∧
      "fresh" = attach_desc cMachines devLabA.name) :=
  ⟨⟨by decide,
    (c5_search_cutoff_and_descriptions cMachines scoreExact
      [devLabA, devLabB] "labOne-a").1 (by decide)⟩,
    (c5_search_cutoff_and_descriptions cMachines scoreExact
      [devLabA, devLabB] "labOne-a").2 "fresh" devLabA
      (by decide)⟩

/-- C6: with the query, the device list and the scorer fixed, raising the
score cutoff of the fuzzy search is monotonically non-increasing in the
number of devices returned; the searched operation is the generalisation
of `target_devices_descriptions`, which it instantiates at limit 25 and
cutoff 0.5. -/
theorem c6_raising_cutoff_monotone (machines : MachineTable)
    (score : String → String → ℚ) (fetched : List Device) (q : String)
    (limit : Nat) (c c' : ℚ) (hcc : c ≤ c') :
    (search_pipeline machines score fetched q limit c').length ≤
      (search_pipeline machines score fetched q limit c).length ∧
    target_devices_descriptions machines score fetched (some q) =
      search_pipeline machines score fetched q 25 (1 / 2) := by
  have hhalf : (mkRat 1 2 : ℚ) = 1 / 2 := by
    rw [Rat.mkRat_eq_div]
    norm_num
  constructor
  · simp only [search_pipeline, List.length_map]
    refine List.Sublist.length_le ?_
    refine List.monotone_filter_right _ ?_
    intro dev hdev
    rw [List.elem_iff] at hdev ⊢
    exact List.map_subset (fun e => e.1)
      (extract_subset_of_cutoff_le score q _ limit hcc) hdev
  · show search_pipeline machines score fetched q 25 (mkRat 1 2) =
      search_pipeline machines score fetched q 25 (1 / 2)
    rw [hhalf]

/-- Witness for C6: raising the cutoff from 0 to 0.5 shrinks the result
from both devices to the exactly matching one. -/
theorem c6_raising_cutoff_monotone_witness :
    ((0 : ℚ) ≤ 1 / 2) ∧
    (search_pipeline cMachines scoreExact [devLabA, devLabB] "labOne-a" 25
      (1 / 2)).length ≤
    (search_pipeline cMachines scoreExact [devLabA, devLabB] "labOne-a" 25
      (0 : ℚ)).length :=
  ⟨by norm_num,
    (c6_raising_cutoff_monotone cMachines scoreExact [devLabA, devLabB]
      "labOne-a" 25 0 (1 / 2) (by norm_num)).1⟩

end Luhack
